import Mathlib

/-!
Shallow embedding of `src/reactor.cpp` (namespace `olo` in the source): the
Reactor bridges a JACK audio host with a Reader (playback source) and a Writer
(capture sink) through lock-free byte ring buffers.

Modelling conventions, in one-to-one correspondence with the source:

* `Sample` occupies `sampleSize = 4` bytes (`sizeof(Sample)`, the JACK default
  float sample).  Ring buffers are byte queues; `jack_ringbuffer_read` and
  `jack_ringbuffer_write` transfer `min(requested, held/free)` bytes, exactly
  as the JACK API specifies; a transfer is "short" when it moves fewer than
  `sampleSize` bytes.
* Host block memory is a total function `Mem : Nat → Nat → List Byte` taking a
  channel index and a frame index to the bytes stored in that sample slot.
  Fetching the per-block buffer pointers (`jack_port_get_buffer`) is modelled
  by passing this memory to `playback`/`capture`; acquisition failure raises an
  exception that never reaches the budget/loop logic modelled here and is
  handled by the completion-cell model (`process_catch`).
* `finished()` of the Reader/Writer is taken as one stable Boolean per callback
  invocation (the value the real-time thread observes during the block).
* The completion promise (`std::promise<void>` named `finished_`) is a cell
  holding an optional outcome plus a counter of `set_value`/`set_exception`
  calls performed on it.  In C++ a second such call throws
  `std::future_error` and leaves the stored outcome unchanged, so the counter
  records write attempts on the shared state while `content` keeps the first
  outcome.
* `NULL_OUTPUT` is a distinguished destination string declared in `io.hpp`
  (outside `src/`); it is modelled as the dedicated constructor
  `OutSpec.null`, faithful to "a distinguished string value among the
  requested output destinations".
-/

namespace Olo

/-- Bytes are modelled as natural numbers; only their count and identity matter. -/
abbrev Byte := Nat

/-- Number of bytes in one `Sample` (`sizeof(Sample)` in the source). -/
def sampleSize : Nat := 4

/-- Host block memory: channel index ↦ frame index ↦ bytes of that sample slot. -/
abbrev Mem := Nat → Nat → List Byte

/-- Write the bytes `v` into the sample slot of channel `c`, frame `n`. -/
def memSet (m : Mem) (c n : Nat) (v : List Byte) : Mem :=
  fun c' n' => if c' = c ∧ n' = n then v else m c' n'

/-- Bytes of the all-zero sample (what `memset(..., 0, sizeof(Sample))` leaves). -/
def zeroCell : List Byte := List.replicate sampleSize 0

/-- Effect of `std::memset(&output_buffers_[c][k], 0, sizeof(Sample) * (fc - k))`:
zero every sample slot of channel `c` at frame indices `k ≤ n < fc`. -/
def memsetZero (m : Mem) (c k fc : Nat) : Mem :=
  fun c' n => if c' = c ∧ k ≤ n ∧ n < fc then zeroCell else m c' n

/-- Well-formed host memory: every sample slot holds exactly `sampleSize` bytes. -/
def SampleMem (m : Mem) : Prop := ∀ c n, (m c n).length = sampleSize

/-! ### Completion/Shutdown Coordinator (`signal_finished`, `process_`, `wait_finished`) -/

/-- Outcome stored in the completion promise: `set_value()` stores `value`,
`set_exception(e)` stores `error e` with `e` an abstract exception identity. -/
inductive Outcome where
  | value : Outcome
  | error (e : Nat) : Outcome
deriving DecidableEq, Repr

/-- Model of `std::promise<void> finished_`: the stored outcome (first write
wins) and the number of `set_value`/`set_exception` calls performed on it.
A second call throws `std::future_error` in C++ and leaves `content` as is. -/
structure Promise where
  content : Option Outcome
  writes : Nat
deriving DecidableEq, Repr

/-- A `set_value`/`set_exception` call on the promise: counts as a write
attempt; the stored outcome is only updated if none is present yet. -/
def Promise.set (p : Promise) (o : Outcome) : Promise :=
  { content := match p.content with
      | some x => some x
      | none => some o,
    writes := p.writes + 1 }

/-- The completion latch of the Reactor: `finished_fired_` plus the promise. -/
structure Completion where
  finished_fired : Bool
  finished : Promise
deriving DecidableEq, Repr

/-- Completion state at construction: latch flag clear, promise untouched. -/
def compInit : Completion := ⟨false, ⟨none, 0⟩⟩

/-- Reactor::signal_finished: `if (!finished_fired_) { finished_fired_ = true;
finished_.set_value(); }`. -/
def signal_finished (s : Completion) : Completion :=
  if s.finished_fired then s
  else { finished_fired := true, finished := s.finished.set .value }

/-- Catch block of `Reactor::process_`: `if (!finished_fired_)
finished_.set_exception(current_exception); else throw;`.  The returned Bool
tells whether the exception was rethrown into the host.  Note that the source
does NOT set `finished_fired_` on the capture branch. -/
def process_catch (s : Completion) (e : Nat) : Completion × Bool :=
  if s.finished_fired then (s, true)
  else ({ s with finished := s.finished.set (.error e) }, false)

/-- A completion-fire attempt: the frame-budget check, the host shutdown hook
and the OS signal handler all call `signal_finished`; an exception escaping
`process` is routed through the catch block of `process_`. -/
inductive FireEvent where
  | budget
  | shutdown
  | osSignal
  | exn (e : Nat)
deriving DecidableEq, Repr

/-- One fire attempt applied to the completion state, per the source. -/
def fireStep (s : Completion) (ev : FireEvent) : Completion :=
  match ev with
  | .budget => signal_finished s
  | .shutdown => signal_finished s
  | .osSignal => signal_finished s
  | .exn e => (process_catch s e).1

/-- A sequence of fire attempts applied in order. -/
def fireRun (s : Completion) (evs : List FireEvent) : Completion :=
  evs.foldl fireStep s

/-- State relevant to the frame-budget check in `Reactor::process`:
the cumulative frame counter `done_` and the completion state. -/
structure ProcState where
  done : Nat
  comp : Completion
deriving DecidableEq, Repr

/-- Tail of `Reactor::process`: `done_ += frame_count; if (needed_ != 0 &&
done_ >= needed_) signal_finished();`.  The playback/capture work preceding it
touches neither `done_`, `needed_`, nor the completion cell and is modelled
separately by `playback`/`capture`. -/
def process_budget (needed : Nat) (s : ProcState) (frame_count : Nat) : ProcState :=
  let done := s.done + frame_count
  if needed ≠ 0 ∧ needed ≤ done then ⟨done, signal_finished s.comp⟩
  else ⟨done, s.comp⟩

/-- A run of process() invocations with the given block sizes, driven only by
the frame-budget completion source. -/
def runBlocks (needed : Nat) (blocks : List Nat) (s : ProcState) : ProcState :=
  blocks.foldl (process_budget needed) s

/-- Result of `Reactor::wait_finished` as observed by the controlling thread. -/
structure WaitResult where
  activatedAfter : Bool
  raised : Option Nat
deriving DecidableEq, Repr

/-- Reactor::wait_finished: `finished_.get_future().wait(); deactivate();
ldebug(...);`.  `std::future::wait()` blocks until the shared state is ready
and then returns; unlike `get()`, it does not retrieve the stored value or
exception, so nothing is ever re-raised on the controlling thread.  `none`
models blocking forever because no completion source has fired. -/
def wait_finished (cell : Promise) : Option WaitResult :=
  match cell.content with
  | none => none
  | some _ => some ⟨false, none⟩

/-! ### Process Engine: playback path (`Reactor::playback`) -/

/-- Mutable state threaded through the playback frame loop: the host block
memory, the unread bytes of the Reader's ring buffer, and `underruns_`. -/
structure PlayState where
  mem : Mem
  ring : List Byte
  underruns : Nat

/-- Inner channel loop of `Reactor::playback` at frame `n`: for the remaining
`rem` channels starting at channel `c`, read `sizeof(Sample)` bytes from the
Reader's ring buffer into the channel's slot in the port buffer, or into the
local `discard` cell when the port is the null output.  A short read
increments `underruns_` unless the Reader is finished and aborts the loop
(`break_outer`); the returned Bool is that abort flag. -/
def playChans (outs : List Bool) (fin : Bool) (n : Nat) :
    Nat → Nat → PlayState → PlayState × Bool
  | 0, _, s => (s, false)
  | rem + 1, c, s =>
    let taken := s.ring.take sampleSize
    if taken.length = sampleSize then
      let mem := if outs.getD c false then memSet s.mem c n taken else s.mem
      playChans outs fin n rem (c + 1) ⟨mem, s.ring.drop taken.length, s.underruns⟩
    else
      let mem := if outs.getD c false
        then memSet s.mem c n (taken ++ (s.mem c n).drop taken.length)
        else s.mem
      ({ mem := mem, ring := s.ring.drop taken.length,
         underruns := if fin then s.underruns else s.underruns + 1 }, true)

/-- Outer frame loop of `Reactor::playback`: frames `n, n+1, ...` for `rem`
frames, stopping early when the channel loop aborts.  Returns the final state
and the value of `n` after the loop (the abort frame, or `n + rem`). -/
def playFrames (outs : List Bool) (fin : Bool) (channels : Nat) :
    Nat → Nat → PlayState → PlayState × Nat
  | 0, n, s => (s, n)
  | rem + 1, n, s =>
    match playChans outs fin n channels 0 s with
    | (s', true) => (s', n)
    | (s', false) => playFrames outs fin channels rem (n + 1) s'

/-- Mute loop of `Reactor::playback`: for channels `c, c+1, ...` (`rem` of
them), skip null ports, otherwise `memset` the slots of frames `k ≤ i < fc`
of that channel to zero. -/
def muteChans (outs : List Bool) (k fc : Nat) : Nat → Nat → Mem → Mem
  | 0, _, m => m
  | rem + 1, c, m =>
    let m' := if outs.getD c false then memsetZero m c k fc else m
    muteChans outs k fc rem (c + 1) m'

/-- Observable result of one `Reactor::playback` invocation. -/
structure PlaybackResult where
  mem : Mem
  ring : List Byte
  underruns : Nat
  wake : Bool
  stoppedAt : Nat

/-- Reactor::playback for one block of `frame_count` frames: refresh buffer
pointers (modelled by taking the host block memory `mem0`), demultiplex
samples frame by frame, wake the Reader unless finished, and mute the
remaining samples of every non-null channel when the loop stopped early. -/
def playback (channels : Nat) (fin : Bool) (outs : List Bool)
    (frame_count : Nat) (ring : List Byte) (mem0 : Mem) : PlaybackResult :=
  let p := playFrames outs fin channels frame_count 0 ⟨mem0, ring, 0⟩
  { mem := if p.2 ≠ frame_count
      then muteChans outs p.2 frame_count channels 0 p.1.mem
      else p.1.mem,
    ring := p.1.ring,
    underruns := p.1.underruns,
    wake := !fin,
    stoppedAt := p.2 }

/-! ### Process Engine: capture path (`Reactor::capture`) -/

/-- Mutable state threaded through the capture frame loop: the bytes committed
to the Writer's ring buffer so far, the remaining free space of that ring
buffer, and `overruns_`. -/
structure CapState where
  committed : List Byte
  free : Nat
  overruns : Nat
deriving DecidableEq, Repr

/-- Inner channel loop of `Reactor::capture` at frame `n`: for the remaining
`rem` channels starting at `c`, write `sizeof(Sample)` bytes from the
channel's slot into the Writer's ring buffer; the ring accepts
`min(sizeof(Sample), free)` bytes.  A short write increments `overruns_`
unless the Writer is finished and aborts the loop. -/
def capChans (mem : Mem) (fin : Bool) (n : Nat) :
    Nat → Nat → CapState → CapState × Bool
  | 0, _, s => (s, false)
  | rem + 1, c, s =>
    let written := min sampleSize s.free
    let s' : CapState :=
      ⟨s.committed ++ (mem c n).take written, s.free - written, s.overruns⟩
    if written = sampleSize then
      capChans mem fin n rem (c + 1) s'
    else
      ({ s' with overruns := if fin then s'.overruns else s'.overruns + 1 }, true)

/-- Outer frame loop of `Reactor::capture`, mirroring `playFrames`. -/
def capFrames (mem : Mem) (fin : Bool) (channels : Nat) :
    Nat → Nat → CapState → CapState × Nat
  | 0, n, s => (s, n)
  | rem + 1, n, s =>
    match capChans mem fin n channels 0 s with
    | (s', true) => (s', n)
    | (s', false) => capFrames mem fin channels rem (n + 1) s'

/-- Observable result of one `Reactor::capture` invocation.  `fetched` records
whether the buffer-pointer update loop ran (`jack_port_get_buffer` calls). -/
structure CaptureResult where
  committed : List Byte
  free : Nat
  overruns : Nat
  wake : Bool
  fetched : Bool
  stoppedAt : Nat
deriving DecidableEq, Repr

/-- Reactor::capture for one block: when the Writer already reports finished
the whole block is skipped (`return` before any work); otherwise fetch the
input buffers, multiplex samples into the Writer's ring buffer frame by frame,
and wake the Writer. -/
def capture (channels : Nat) (fin : Bool) (free : Nat)
    (frame_count : Nat) (mem : Mem) : CaptureResult :=
  if fin then ⟨[], free, 0, false, false, 0⟩
  else
    let p := capFrames mem fin channels frame_count 0 ⟨[], free, 0⟩
    ⟨p.1.committed, p.1.free, p.1.overruns, true, true, p.2⟩

/-! ### Port Manager (`register_ports`, `connect_ports`) and construction -/

/-- Requested destination of an output channel: either the `NULL_OUTPUT`
sentinel (declared in `io.hpp`, outside `src/`) or a named Jack port. -/
inductive OutSpec where
  | null
  | dest (name : String)
deriving DecidableEq, Repr

/-- Output-port half of `Reactor::register_ports` starting at channel index
`i`: a `NULL_OUTPUT` spec records a null port handle and skips allocation,
otherwise a real output port (identified here by its channel index) is
created.  Port creation is assumed to succeed (the `PortCreationError` path is
outside the claims below). -/
def register_outputs_from : Nat → List OutSpec → List (Option Nat)
  | _, [] => []
  | i, OutSpec.null :: rest => none :: register_outputs_from (i + 1) rest
  | i, OutSpec.dest _ :: rest => some i :: register_outputs_from (i + 1) rest

/-- The output ports registered for the given specs (channel 0 first). -/
def register_outputs (specs : List OutSpec) : List (Option Nat) :=
  register_outputs_from 0 specs

/-- Output half of `Reactor::connect_ports` starting at channel index `i`:
null ports are skipped (`continue`, left disconnected), every other port's
index is an attempted `jack_connect`. -/
def connect_attempts_from : Nat → List (Option Nat) → List Nat
  | _, [] => []
  | i, none :: rest => connect_attempts_from (i + 1) rest
  | i, some _ :: rest => i :: connect_attempts_from (i + 1) rest

/-- Channel indices for which `connect_ports` attempts an output connection. -/
def connect_attempts (outs : List (Option Nat)) : List Nat :=
  connect_attempts_from 0 outs

/-- Reactor::connect_ports: wire every input, then every non-null output, in
order, stopping at the first `jack_connect` failure.  `inOk`/`outOk` are the
host's per-connection success oracles; the result is the first failing
connection, if any (the thrown `runtime_error`). -/
def connect_ports_failure (hasWriter hasReader : Bool) (nInputs : Nat)
    (outs : List (Option Nat)) (inOk outOk : Nat → Bool) : Option Nat :=
  match (if hasWriter then (List.range nInputs).find? (fun i => ! inOk i) else none) with
  | some i => some i
  | none =>
    if hasReader then (connect_attempts outs).find? (fun i => ! outOk i) else none

/-- Externally visible state after `Reactor::Reactor` returns or throws:
whether it threw, whether the Jack client is still activated, how many input
ports and which output ports are still registered with the host, and whether
the process-wide `instance` pointer still points at this Reactor. -/
structure CtorResult where
  threw : Bool
  activated : Bool
  inputPortsRegistered : Nat
  outputPortsRegistered : List Nat
  instanceSet : Bool
deriving DecidableEq, Repr

/-- Reactor::Reactor from the point the singleton check passed: register the
ports, install callbacks/signal handlers, activate, then `connect_ports`
inside `try { ... } catch (...) { deactivate(); throw; }`.  On a wiring
failure the constructor throws: C++ does not run the destructor of a
partially constructed object, so the catch block's `deactivate()` is the only
rollback that happens — the registered ports and the `instance` pointer are
left as they are. -/
def reactorConstruct (hasWriter hasReader : Bool)
    (inputPorts : List String) (outputPorts : List OutSpec)
    (inOk outOk : Nat → Bool) : CtorResult :=
  let nIn := if hasWriter then inputPorts.length else 0
  let outs := if hasReader then register_outputs outputPorts else []
  match connect_ports_failure hasWriter hasReader nIn outs inOk outOk with
  | none => ⟨false, true, nIn, outs.filterMap id, true⟩
  | some _ => ⟨true, false, nIn, outs.filterMap id, true⟩

/-! ### Concrete inputs used by counterexamples and witnesses -/

/-- Host memory whose every slot holds the same well-formed 4-byte sample. -/
def constMem : Mem := fun _ _ => [1, 2, 3, 4]

/-- A ring buffer holding exactly three full samples (12 bytes). -/
def ring12 : List Byte := [1, 2, 3, 4, 5, 6, 7, 8, 9, 10, 11, 12]

/-! ## Helper lemmas -/

/-- Invariant tying the frame-budget completion state to the cumulative frame
counter when the budget check is the only fire source. -/
def budgetInv (B : Nat) (s : ProcState) : Prop :=
  s.comp.finished_fired = decide (B ≤ s.done) ∧
  s.comp.finished.writes = (if B ≤ s.done then 1 else 0) ∧
  s.comp.finished.content = (if B ≤ s.done then some Outcome.value else none)

lemma budgetInv_step (B fc : Nat) (hB : B ≠ 0) (s : ProcState)
    (h : budgetInv B s) : budgetInv B (process_budget B s fc) := by
  obtain ⟨d, fired, content, writes⟩ := s
  simp only [budgetInv] at h ⊢
  obtain ⟨h1, h2, h3⟩ := h
  simp only [process_budget, signal_finished, Promise.set]
  by_cases hle : B ≤ d + fc
  · by_cases hd : B ≤ d
    · simp [h1, h2, h3, hB, hle, hd]
    · simp [h1, h2, h3, hB, hle, hd]
  · have hd : ¬ B ≤ d := by omega
    simp [h1, h2, h3, hle, hd]

lemma budgetInv_run (B : Nat) (hB : B ≠ 0) :
    ∀ (blocks : List Nat) (s : ProcState),
      budgetInv B s → budgetInv B (runBlocks B blocks s) := by
  intro blocks
  induction blocks with
  | nil => intro s h; exact h
  | cons b rest ih =>
    intro s h
    simpa [runBlocks, List.foldl] using ih _ (budgetInv_step B b hB s h)

lemma process_budget_done (B : Nat) (s : ProcState) (fc : Nat) :
    (process_budget B s fc).done = s.done + fc := by
  simp only [process_budget]
  split <;> rfl

lemma runBlocks_done (B : Nat) :
    ∀ (blocks : List Nat) (s : ProcState),
      (runBlocks B blocks s).done = s.done + blocks.sum := by
  intro blocks
  induction blocks with
  | nil => intro s; simp [runBlocks]
  | cons b rest ih =>
    intro s
    simp [runBlocks, List.foldl] at ih ⊢
    rw [ih (process_budget B s b), process_budget_done]
    omega

/-- Characterization of the playback channel loop: the loop aborts exactly
when fewer than `sampleSize * rem` bytes are held, it consumes
`min (sampleSize * rem) held` bytes (a short read consumes everything that is
left), and the underrun counter increments exactly once on an abort observed
with the Reader not finished. -/
lemma playChans_core (outs : List Bool) (fin : Bool) (n : Nat) :
    ∀ (rem c : Nat) (s : PlayState),
      (playChans outs fin n rem c s).2 = decide (s.ring.length < sampleSize * rem) ∧
      (playChans outs fin n rem c s).1.ring
        = s.ring.drop (min (sampleSize * rem) s.ring.length) ∧
      (playChans outs fin n rem c s).1.underruns
        = s.underruns + (if s.ring.length < sampleSize * rem ∧ fin = false then 1 else 0) := by
  intro rem
  induction rem with
  | zero =>
    intro c s
    refine ⟨by simp [playChans], by simp [playChans], by simp [playChans]⟩
  | succ rem ih =>
    intro c s
    by_cases h4 : sampleSize ≤ s.ring.length
    · have hlen : (s.ring.take sampleSize).length = sampleSize := by
        simp [List.length_take]; omega
      have hstep : playChans outs fin n (rem + 1) c s
          = playChans outs fin n rem (c + 1)
              ⟨if outs.getD c false then memSet s.mem c n (s.ring.take sampleSize) else s.mem,
               s.ring.drop sampleSize, s.underruns⟩ := by
        simp [playChans, hlen]
      rw [hstep]
      obtain ⟨i1, i2, i3⟩ := ih (c + 1)
        ⟨if outs.getD c false then memSet s.mem c n (s.ring.take sampleSize) else s.mem,
         s.ring.drop sampleSize, s.underruns⟩
      have hdlen : (s.ring.drop sampleSize).length = s.ring.length - sampleSize := by
        simp [List.length_drop]
      have hexp : sampleSize * (rem + 1) = sampleSize * rem + sampleSize := by ring
      refine ⟨?_, ?_, ?_⟩
      · rw [i1]
        simp only [hdlen]
        congr 1
        simp only [eq_iff_iff]
        omega
      · rw [i2]
        simp only [hdlen, List.drop_drop]
        congr 1
        omega
      · rw [i3]
        simp only [hdlen]
        congr 1
        by_cases hfin : fin = false
        · simp only [hfin, and_true]
          congr 1
          simp only [eq_iff_iff]
          omega
        · simp [hfin]
    · have hshort : s.ring.length < sampleSize := by omega
      have hmono : sampleSize ≤ sampleSize * (rem + 1) := by
        have := Nat.mul_le_mul_left sampleSize (show 1 ≤ rem + 1 by omega)
        simpa using this
      have hlen : (s.ring.take sampleSize).length = s.ring.length := by
        simp [List.length_take]; omega
      have hcond : ¬ ((s.ring.take sampleSize).length = sampleSize) := by
        rw [hlen]; omega
      refine ⟨?_, ?_, ?_⟩
      · simp only [playChans]
        rw [if_neg hcond]
        have hlt : s.ring.length < sampleSize * (rem + 1) := by omega
        simp [hlt]
      · simp only [playChans]
        rw [if_neg hcond]
        have hmin2 : min (sampleSize * (rem + 1)) s.ring.length = s.ring.length := by
          omega
        rw [hlen, hmin2]
      · simp only [playChans]
        rw [if_neg hcond]
        have hlt : s.ring.length < sampleSize * (rem + 1) := by omega
        cases fin with
        | false => simp [hlt]
        | true => simp

/-- The playback channel loop never writes into the slot of a channel whose
port is the null output (its bytes go to the local discard cell). -/
lemma playChans_null_mem (outs : List Bool) (fin : Bool) (n ch m : Nat)
    (hch : outs.getD ch false = false) :
    ∀ (rem c : Nat) (s : PlayState),
      (playChans outs fin n rem c s).1.mem ch m = s.mem ch m := by
  intro rem
  induction rem with
  | zero => intro c s; simp [playChans]
  | succ rem ih =>
    intro c s
    have hset : ∀ (v : List Byte),
        (if outs.getD c false then memSet s.mem c n v else s.mem) ch m = s.mem ch m := by
      intro v
      by_cases hc : outs.getD c false
      · rw [if_pos hc]
        have hne : ¬ (ch = c) := by
          intro h; rw [h] at hch; rw [hch] at hc; exact Bool.noConfusion hc
        simp [memSet, hne]
      · rw [if_neg hc]
    by_cases h4 : (s.ring.take sampleSize).length = sampleSize
    · simp only [playChans]
      rw [if_pos h4]
      rw [ih]
      exact hset _
    · simp only [playChans]
      rw [if_neg h4]
      exact hset _

/-- Characterization of the playback frame loop: the underrun counter
increments exactly once iff the run aborts with the Reader not finished, and
the loop completes all frames iff the ring buffer held a full block. -/
lemma playFrames_core (outs : List Bool) (fin : Bool) (C : Nat) :
    ∀ (rem n : Nat) (s : PlayState),
      (playFrames outs fin C rem n s).1.underruns
        = s.underruns
          + (if s.ring.length < sampleSize * C * rem ∧ fin = false then 1 else 0) ∧
      ((playFrames outs fin C rem n s).2 = n + rem
        ↔ ¬ (s.ring.length < sampleSize * C * rem)) := by
  intro rem
  induction rem with
  | zero =>
    intro n s
    refine ⟨by simp [playFrames], by simp [playFrames]⟩
  | succ rem ih =>
    intro n s
    obtain ⟨f1, f2, f3⟩ := playChans_core outs fin n C 0 s
    have hmono : sampleSize * C ≤ sampleSize * C * (rem + 1) := by
      have := Nat.mul_le_mul_left (sampleSize * C) (show 1 ≤ rem + 1 by omega)
      simpa using this
    have hexp : sampleSize * C * (rem + 1) = sampleSize * C * rem + sampleSize * C := by
      ring
    rcases hp : playChans outs fin n C 0 s with ⟨t, a⟩
    rw [hp] at f1 f2 f3
    dsimp only at f1 f2 f3
    by_cases hC : s.ring.length < sampleSize * C
    · have ha : a = true := by rw [f1]; simp [hC]
      subst ha
      have hres : playFrames outs fin C (rem + 1) n s = (t, n) := by
        simp [playFrames, hp]
      rw [hres]
      have hbig : s.ring.length < sampleSize * C * (rem + 1) := by omega
      constructor
      · show t.underruns = _
        rw [f3]
        congr 1
        simp [hC, hbig]
      · show n = n + (rem + 1) ↔ _
        constructor
        · intro h; exact absurd h (by omega)
        · intro h; exact absurd hbig h
    · have ha : a = false := by rw [f1]; simp [hC]
      subst ha
      have hres : playFrames outs fin C (rem + 1) n s
          = playFrames outs fin C rem (n + 1) t := by
        simp [playFrames, hp]
      rw [hres]
      have hmin : min (sampleSize * C) s.ring.length = sampleSize * C := by omega
      have hlen : t.ring.length = s.ring.length - sampleSize * C := by
        rw [f2, hmin]; simp [List.length_drop]
      obtain ⟨i1, i2⟩ := ih (n + 1) t
      have hcond : (t.ring.length < sampleSize * C * rem)
          ↔ (s.ring.length < sampleSize * C * (rem + 1)) := by
        rw [hlen]; constructor <;> intro <;> omega
      constructor
      · rw [i1, f3]
        have h0 : ¬ (s.ring.length < sampleSize * C ∧ fin = false) := by
          intro h; exact hC h.1
        rw [if_neg h0]
        have hiff : (t.ring.length < sampleSize * C * rem ∧ fin = false)
            ↔ (s.ring.length < sampleSize * C * (rem + 1) ∧ fin = false) := by
          constructor
          · exact fun h => ⟨hcond.mp h.1, h.2⟩
          · exact fun h => ⟨hcond.mpr h.1, h.2⟩
        rw [if_congr hiff rfl rfl]
        simp
      · have he : n + 1 + rem = n + (rem + 1) := by omega
        rw [he] at i2
        rw [i2, hcond]

/-- The playback frame loop never writes into the slots of a null-output
channel. -/
lemma playFrames_null_mem (outs : List Bool) (fin : Bool) (C ch m : Nat)
    (hch : outs.getD ch false = false) :
    ∀ (rem n : Nat) (s : PlayState),
      (playFrames outs fin C rem n s).1.mem ch m = s.mem ch m := by
  intro rem
  induction rem with
  | zero => intro n s; simp [playFrames]
  | succ rem ih =>
    intro n s
    rcases hp : playChans outs fin n C 0 s with ⟨t, a⟩
    have hmem : t.mem ch m = s.mem ch m := by
      have := playChans_null_mem outs fin n ch m hch C 0 s
      rw [hp] at this
      exact this
    cases a with
    | true => simp [playFrames, hp, hmem]
    | false =>
      have : playFrames outs fin C (rem + 1) n s = playFrames outs fin C rem (n + 1) t := by
        simp [playFrames, hp]
      rw [this, ih, hmem]

/-- The ring-buffer consumption, abort position and underrun count of the
playback frame loop do not depend on which channels are null outputs: reads
stay in lockstep across channels whether or not a channel has a live port. -/
lemma playFrames_indep (fin : Bool) (C : Nat) (outs1 outs2 : List Bool) :
    ∀ (rem n : Nat) (s1 s2 : PlayState), s1.ring = s2.ring → s1.underruns = s2.underruns →
      (playFrames outs1 fin C rem n s1).1.ring = (playFrames outs2 fin C rem n s2).1.ring ∧
      (playFrames outs1 fin C rem n s1).1.underruns
        = (playFrames outs2 fin C rem n s2).1.underruns ∧
      (playFrames outs1 fin C rem n s1).2 = (playFrames outs2 fin C rem n s2).2 := by
  intro rem
  induction rem with
  | zero =>
    intro n s1 s2 h1 h2
    exact ⟨by simpa [playFrames] using h1, by simpa [playFrames] using h2, rfl⟩
  | succ rem ih =>
    intro n s1 s2 h1 h2
    obtain ⟨a1, r1, u1⟩ := playChans_core outs1 fin n C 0 s1
    obtain ⟨a2, r2, u2⟩ := playChans_core outs2 fin n C 0 s2
    rcases hp1 : playChans outs1 fin n C 0 s1 with ⟨t1, b1⟩
    rcases hp2 : playChans outs2 fin n C 0 s2 with ⟨t2, b2⟩
    rw [hp1] at a1 r1 u1
    rw [hp2] at a2 r2 u2
    dsimp only at a1 r1 u1 a2 r2 u2
    have hb : b1 = b2 := by rw [a1, a2, h1]
    have hr : t1.ring = t2.ring := by rw [r1, r2, h1]
    have hu : t1.underruns = t2.underruns := by rw [u1, u2, h1, h2]
    cases b2 with
    | true =>
      rw [hb] at hp1
      have e1 : playFrames outs1 fin C (rem + 1) n s1 = (t1, n) := by
        simp [playFrames, hp1]
      have e2 : playFrames outs2 fin C (rem + 1) n s2 = (t2, n) := by
        simp [playFrames, hp2]
      rw [e1, e2]
      exact ⟨hr, hu, rfl⟩
    | false =>
      rw [hb] at hp1
      have e1 : playFrames outs1 fin C (rem + 1) n s1
          = playFrames outs1 fin C rem (n + 1) t1 := by
        simp [playFrames, hp1]
      have e2 : playFrames outs2 fin C (rem + 1) n s2
          = playFrames outs2 fin C rem (n + 1) t2 := by
        simp [playFrames, hp2]
      rw [e1, e2]
      exact ih (n + 1) t1 t2 hr hu

/-- Exact abort position of the playback frame loop: with
`sampleSize * (C * k + c) + r` bytes held (`r < sampleSize`, `c < C`), the
loop stops at frame `n + k` having consumed the entire ring buffer — the `c`
full samples of frame `k` and the trailing `r` bytes included. -/
lemma playFrames_abort (outs : List Bool) (fin : Bool) (C c r : Nat)
    (hc : c < C) (hr : r < sampleSize) :
    ∀ (k rem n : Nat) (s : PlayState),
      s.ring.length = sampleSize * (C * k + c) + r → k < rem →
      (playFrames outs fin C rem n s).2 = n + k ∧
      (playFrames outs fin C rem n s).1.ring = [] := by
  intro k
  induction k with
  | zero =>
    intro rem n s hlen hrem
    obtain ⟨rem', rfl⟩ : ∃ rem', rem = rem' + 1 := ⟨rem - 1, by omega⟩
    obtain ⟨f1, f2, f3⟩ := playChans_core outs fin n C 0 s
    have hsmall : s.ring.length < sampleSize * C := by
      have h1 : sampleSize * (c + 1) ≤ sampleSize * C := Nat.mul_le_mul_left _ (by omega)
      have h2 : sampleSize * (C * 0 + c) = sampleSize * c := by ring
      have h3 : sampleSize * (c + 1) = sampleSize * c + sampleSize := by ring
      omega
    rcases hp : playChans outs fin n C 0 s with ⟨t, a⟩
    rw [hp] at f1 f2
    dsimp only at f1 f2
    have ha : a = true := by rw [f1]; simp [hsmall]
    subst ha
    have hres : playFrames outs fin C (rem' + 1) n s = (t, n) := by
      simp [playFrames, hp]
    rw [hres]
    constructor
    · show n = n + 0
      omega
    · show t.ring = []
      have hmin : min (sampleSize * C) s.ring.length = s.ring.length := by omega
      rw [f2, hmin]
      simp [List.drop_length]
  | succ k ih =>
    intro rem n s hlen hrem
    obtain ⟨rem', rfl⟩ : ∃ rem', rem = rem' + 1 := ⟨rem - 1, by omega⟩
    obtain ⟨f1, f2, f3⟩ := playChans_core outs fin n C 0 s
    have hE : sampleSize * (C * (k + 1) + c) = sampleSize * C + sampleSize * (C * k + c) := by
      ring
    have hbig : ¬ (s.ring.length < sampleSize * C) := by omega
    rcases hp : playChans outs fin n C 0 s with ⟨t, a⟩
    rw [hp] at f1 f2
    dsimp only at f1 f2
    have ha : a = false := by rw [f1]; simp [hbig]
    subst ha
    have hres : playFrames outs fin C (rem' + 1) n s
        = playFrames outs fin C rem' (n + 1) t := by
      simp [playFrames, hp]
    rw [hres]
    have hmin : min (sampleSize * C) s.ring.length = sampleSize * C := by omega
    have hlen2 : t.ring.length = sampleSize * (C * k + c) + r := by
      rw [f2, hmin]; simp [List.length_drop]; omega
    obtain ⟨i1, i2⟩ := ih rem' (n + 1) t hlen2 (by omega)
    refine ⟨by rw [i1]; omega, i2⟩

/-- Channels below the starting index are untouched by the mute loop. -/
lemma muteChans_lt (outs : List Bool) (k fc : Nat) :
    ∀ (rem c0 : Nat) (m : Mem) (ch n : Nat), ch < c0 →
      muteChans outs k fc rem c0 m ch n = m ch n := by
  intro rem
  induction rem with
  | zero => intro c0 m ch n _; simp [muteChans]
  | succ rem ih =>
    intro c0 m ch n hlt
    simp only [muteChans]
    rw [ih (c0 + 1) _ ch n (by omega)]
    by_cases hc : outs.getD c0 false
    · rw [if_pos hc]
      have hne : ¬ (ch = c0) := by omega
      simp [memsetZero, hne]
    · rw [if_neg hc]

/-- The mute loop zeroes the slots of frames `k ≤ n < fc` of every real
(non-null) channel in its range. -/
lemma muteChans_zero (outs : List Bool) (k fc : Nat) :
    ∀ (rem c0 : Nat) (m : Mem) (ch n : Nat),
      c0 ≤ ch → ch < c0 + rem → outs.getD ch false = true → k ≤ n → n < fc →
      muteChans outs k fc rem c0 m ch n = zeroCell := by
  intro rem
  induction rem with
  | zero => intro c0 m ch n h1 h2 _ _ _; omega
  | succ rem ih =>
    intro c0 m ch n h1 h2 hch hk hn
    simp only [muteChans]
    by_cases hc : ch = c0
    · subst hc
      rw [muteChans_lt outs k fc rem (ch + 1) _ ch n (by omega)]
      rw [if_pos hch]
      simp [memsetZero, hk, hn]
    · exact ih (c0 + 1) _ ch n (by omega) (by omega) hch hk hn

/-- The mute loop never writes into the slots of a null-output channel. -/
lemma muteChans_null (outs : List Bool) (k fc : Nat) :
    ∀ (rem c0 : Nat) (m : Mem) (ch n : Nat), outs.getD ch false = false →
      muteChans outs k fc rem c0 m ch n = m ch n := by
  intro rem
  induction rem with
  | zero => intro c0 m ch n _; simp [muteChans]
  | succ rem ih =>
    intro c0 m ch n hch
    simp only [muteChans]
    rw [ih (c0 + 1) _ ch n hch]
    by_cases hc : outs.getD c0 false
    · rw [if_pos hc]
      have hne : ¬ (ch = c0) := by
        intro h; rw [h] at hch; rw [hch] at hc; exact Bool.noConfusion hc
      simp [memsetZero, hne]
    · rw [if_neg hc]

/-- Characterization of the capture channel loop: the loop aborts exactly when
the Writer's ring buffer has fewer than `sampleSize * rem` free bytes, it
fills `min (sampleSize * rem) free` bytes (a short write commits whatever
space is left), and the overrun counter increments exactly once on an abort
observed with the Writer not finished. -/
lemma capChans_core (mem : Mem) (fin : Bool) (n : Nat) :
    ∀ (rem c : Nat) (s : CapState),
      (capChans mem fin n rem c s).2 = decide (s.free < sampleSize * rem) ∧
      (capChans mem fin n rem c s).1.free = s.free - min (sampleSize * rem) s.free ∧
      (capChans mem fin n rem c s).1.overruns
        = s.overruns + (if s.free < sampleSize * rem ∧ fin = false then 1 else 0) ∧
      (SampleMem mem →
        (capChans mem fin n rem c s).1.committed.length
          = s.committed.length + min (sampleSize * rem) s.free) := by
  intro rem
  induction rem with
  | zero =>
    intro c s
    refine ⟨by simp [capChans], by simp [capChans], by simp [capChans],
      fun _ => by simp [capChans]⟩
  | succ rem ih =>
    intro c s
    have hexp : sampleSize * (rem + 1) = sampleSize * rem + sampleSize := by ring
    have hmono : sampleSize ≤ sampleSize * (rem + 1) := by
      have := Nat.mul_le_mul_left sampleSize (show 1 ≤ rem + 1 by omega)
      simpa using this
    by_cases h4 : sampleSize ≤ s.free
    · have hw : min sampleSize s.free = sampleSize := by omega
      have hstep : capChans mem fin n (rem + 1) c s
          = capChans mem fin n rem (c + 1)
              ⟨s.committed ++ (mem c n).take (min sampleSize s.free),
               s.free - min sampleSize s.free, s.overruns⟩ := by
        simp only [capChans]
        rw [if_pos hw]
      rw [hstep]
      obtain ⟨i1, i2, i3, i4⟩ := ih (c + 1)
        ⟨s.committed ++ (mem c n).take (min sampleSize s.free),
         s.free - min sampleSize s.free, s.overruns⟩
      refine ⟨?_, ?_, ?_, ?_⟩
      · rw [i1]
        congr 1
        simp only [eq_iff_iff]
        omega
      · rw [i2]
        dsimp only
        omega
      · rw [i3]
        dsimp only
        congr 1
        by_cases hfin : fin = false
        · simp only [hfin, and_true]
          congr 1
          simp only [eq_iff_iff]
          omega
        · simp [hfin]
      · intro hwf
        rw [i4 hwf]
        dsimp only
        rw [List.length_append, List.length_take, hwf c n]
        omega
    · have hw : ¬ (min sampleSize s.free = sampleSize) := by omega
      have hstep : capChans mem fin n (rem + 1) c s
          = (⟨s.committed ++ (mem c n).take (min sampleSize s.free),
              s.free - min sampleSize s.free,
              if fin then s.overruns else s.overruns + 1⟩, true) := by
        simp only [capChans]
        rw [if_neg hw]
      rw [hstep]
      have hlt : s.free < sampleSize * (rem + 1) := by omega
      refine ⟨?_, ?_, ?_, ?_⟩
      · dsimp only
        simp [hlt]
      · dsimp only
        omega
      · dsimp only
        cases fin with
        | false => simp [hlt]
        | true => simp
      · intro hwf
        dsimp only
        rw [List.length_append, List.length_take, hwf c n]
        omega

/-- Characterization of the capture frame loop, mirroring `playFrames_core`:
overrun count, completion condition, remaining free space and the number of
bytes committed to the Writer's ring buffer. -/
lemma capFrames_core (mem : Mem) (fin : Bool) (C : Nat) :
    ∀ (rem n : Nat) (s : CapState),
      (capFrames mem fin C rem n s).1.overruns
        = s.overruns + (if s.free < sampleSize * C * rem ∧ fin = false then 1 else 0) ∧
      ((capFrames mem fin C rem n s).2 = n + rem
        ↔ ¬ (s.free < sampleSize * C * rem)) ∧
      (capFrames mem fin C rem n s).1.free
        = s.free - min (sampleSize * C * rem) s.free ∧
      (SampleMem mem →
        (capFrames mem fin C rem n s).1.committed.length
          = s.committed.length + min (sampleSize * C * rem) s.free) := by
  intro rem
  induction rem with
  | zero =>
    intro n s
    refine ⟨by simp [capFrames], by simp [capFrames], by simp [capFrames],
      fun _ => by simp [capFrames]⟩
  | succ rem ih =>
    intro n s
    obtain ⟨f1, f2, f3, f4⟩ := capChans_core mem fin n C 0 s
    have hmono : sampleSize * C ≤ sampleSize * C * (rem + 1) := by
      have := Nat.mul_le_mul_left (sampleSize * C) (show 1 ≤ rem + 1 by omega)
      simpa using this
    have hexp : sampleSize * C * (rem + 1) = sampleSize * C * rem + sampleSize * C := by
      ring
    rcases hp : capChans mem fin n C 0 s with ⟨t, a⟩
    rw [hp] at f1 f2 f3 f4
    dsimp only at f1 f2 f3 f4
    by_cases hC : s.free < sampleSize * C
    · have ha : a = true := by rw [f1]; simp [hC]
      subst ha
      have hres : capFrames mem fin C (rem + 1) n s = (t, n) := by
        simp [capFrames, hp]
      rw [hres]
      have hbig : s.free < sampleSize * C * (rem + 1) := by omega
      refine ⟨?_, ?_, ?_, ?_⟩
      · show t.overruns = _
        rw [f3]
        congr 1
        simp [hC, hbig]
      · show n = n + (rem + 1) ↔ _
        constructor
        · intro h; exact absurd h (by omega)
        · intro h; exact absurd hbig h
      · show t.free = _
        rw [f2]
        omega
      · intro hwf
        show t.committed.length = _
        rw [f4 hwf]
        omega
    · have ha : a = false := by rw [f1]; simp [hC]
      subst ha
      have hres : capFrames mem fin C (rem + 1) n s
          = capFrames mem fin C rem (n + 1) t := by
        simp [capFrames, hp]
      rw [hres]
      have hfree : t.free = s.free - sampleSize * C := by
        rw [f2]; omega
      obtain ⟨i1, i2, i3, i4⟩ := ih (n + 1) t
      have hcond : (t.free < sampleSize * C * rem)
          ↔ (s.free < sampleSize * C * (rem + 1)) := by
        rw [hfree]; constructor <;> intro <;> omega
      refine ⟨?_, ?_, ?_, ?_⟩
      · rw [i1, f3]
        have h0 : ¬ (s.free < sampleSize * C ∧ fin = false) := by
          intro h; exact hC h.1
        rw [if_neg h0]
        have hiff : (t.free < sampleSize * C * rem ∧ fin = false)
            ↔ (s.free < sampleSize * C * (rem + 1) ∧ fin = false) := by
          constructor
          · exact fun h => ⟨hcond.mp h.1, h.2⟩
          · exact fun h => ⟨hcond.mpr h.1, h.2⟩
        rw [if_congr hiff rfl rfl]
        simp
      · have he : n + 1 + rem = n + (rem + 1) := by omega
        rw [he] at i2
        rw [i2, hcond]
      · rw [i3, hfree]
        omega
      · intro hwf
        rw [i4 hwf, f4 hwf, hfree]
        omega

/-- Registering a `NULL_OUTPUT` spec records a null port handle at that
channel index. -/
lemma register_outputs_from_get :
    ∀ (specs : List OutSpec) (s i : Nat), specs[i]? = some OutSpec.null →
      (register_outputs_from s specs)[i]? = some none := by
  intro specs
  induction specs with
  | nil => intro s i h; simp at h
  | cons a rest ih =>
    intro s i h
    cases i with
    | zero =>
      simp at h
      subst h
      simp [register_outputs_from]
    | succ i =>
      simp at h
      cases a with
      | null => simpa [register_outputs_from] using ih (s + 1) i h
      | dest name => simpa [register_outputs_from] using ih (s + 1) i h

/-- Every attempted output connection index is at least the starting index. -/
lemma connect_attempts_from_ge :
    ∀ (outs : List (Option Nat)) (s j : Nat),
      j ∈ connect_attempts_from s outs → s ≤ j := by
  intro outs
  induction outs with
  | nil => intro s j h; simp [connect_attempts_from] at h
  | cons o rest ih =>
    intro s j h
    cases o with
    | none =>
      have := ih (s + 1) j (by simpa [connect_attempts_from] using h)
      omega
    | some p =>
      simp only [connect_attempts_from, List.mem_cons] at h
      rcases h with h | h
      · omega
      · have := ih (s + 1) j h
        omega

/-- No connection is attempted for a channel whose registered port is null. -/
lemma connect_attempts_from_null :
    ∀ (outs : List (Option Nat)) (s i : Nat), outs[i]? = some none →
      ¬ ((s + i) ∈ connect_attempts_from s outs) := by
  intro outs
  induction outs with
  | nil => intro s i h; simp at h
  | cons o rest ih =>
    intro s i h hmem
    cases i with
    | zero =>
      simp at h
      subst h
      simp only [connect_attempts_from] at hmem
      have := connect_attempts_from_ge rest (s + 1) (s + 0) hmem
      omega
    | succ i =>
      simp at h
      cases o with
      | none =>
        simp only [connect_attempts_from] at hmem
        have he : s + (i + 1) = (s + 1) + i := by omega
        rw [he] at hmem
        exact ih (s + 1) i h hmem
      | some p =>
        simp only [connect_attempts_from, List.mem_cons] at hmem
        rcases hmem with hmem | hmem
        · omega
        · have he : s + (i + 1) = (s + 1) + i := by omega
          rw [he] at hmem
          exact ih (s + 1) i h hmem

/-- Unfolding of `playback` (the let binding expanded). -/
lemma playback_eq (channels : Nat) (fin : Bool) (outs : List Bool)
    (frame_count : Nat) (ring : List Byte) (mem0 : Mem) :
    playback channels fin outs frame_count ring mem0
      = { mem := if (playFrames outs fin channels frame_count 0 ⟨mem0, ring, 0⟩).2
              ≠ frame_count
            then muteChans outs
              (playFrames outs fin channels frame_count 0 ⟨mem0, ring, 0⟩).2
                frame_count channels 0
                (playFrames outs fin channels frame_count 0 ⟨mem0, ring, 0⟩).1.mem
            else (playFrames outs fin channels frame_count 0 ⟨mem0, ring, 0⟩).1.mem,
          ring := (playFrames outs fin channels frame_count 0 ⟨mem0, ring, 0⟩).1.ring,
          underruns := (playFrames outs fin channels frame_count 0 ⟨mem0, ring, 0⟩).1.underruns,
          wake := !fin,
          stoppedAt := (playFrames outs fin channels frame_count 0 ⟨mem0, ring, 0⟩).2 } := rfl

/-- Unfolding of `capture` when the Writer is not finished. -/
lemma capture_false_eq (channels free frame_count : Nat) (mem : Mem) :
    capture channels false free frame_count mem
      = ⟨(capFrames mem false channels frame_count 0 ⟨[], free, 0⟩).1.committed,
         (capFrames mem false channels frame_count 0 ⟨[], free, 0⟩).1.free,
         (capFrames mem false channels frame_count 0 ⟨[], free, 0⟩).1.overruns,
         true, true,
         (capFrames mem false channels frame_count 0 ⟨[], free, 0⟩).2⟩ := rfl

/-! ## Claims -/

/-- C1: a run configured with a non-zero frame budget `B` fires completion via
the frame-budget check exactly when the cumulative processed-frame total
reaches `B`, and never while the total is still below `B`.  Quantifying over
every block sequence covers every prefix of a run: after any prefix the latch
is set iff the cumulative total has reached `B`, and the promise has been
written exactly once when it has (the first crossing invocation performs the
single write; every later invocation's check is a no-op). -/
theorem c1_frame_budget (B : Nat) (hB : B ≠ 0) (blocks : List Nat) :
    ((runBlocks B blocks ⟨0, compInit⟩).comp.finished_fired = true ↔ B ≤ blocks.sum) ∧
    (runBlocks B blocks ⟨0, compInit⟩).comp.finished.writes
      = (if B ≤ blocks.sum then 1 else 0) := by
  have hinit : budgetInv B ⟨0, compInit⟩ := by
    have : ¬ B ≤ 0 := by omega
    simp [budgetInv, compInit, this]
  have h := budgetInv_run B hB blocks _ hinit
  have hd := runBlocks_done B blocks ⟨0, compInit⟩
  obtain ⟨h1, h2, h3⟩ := h
  simp only [hd] at h1 h2 h3
  simp only [Nat.zero_add] at h1 h2 h3
  refine ⟨?_, ?_⟩
  · rw [h1]; simp
  · exact h2

theorem c1_frame_budget_witness :
    ((3 : Nat) ≠ 0) ∧
    (((runBlocks 3 [2, 2] ⟨0, compInit⟩).comp.finished_fired = true ↔ 3 ≤ List.sum [2, 2]) ∧
      (runBlocks 3 [2, 2] ⟨0, compInit⟩).comp.finished.writes
        = (if 3 ≤ List.sum [2, 2] then 1 else 0)) :=
  ⟨by decide, c1_frame_budget 3 (by decide) [2, 2]⟩

/-- C2 (code bug, evaluated at the failing input): the catch block of
`Reactor::process_` calls `set_exception` on the promise without setting
`finished_fired_`, so after an in-callback exception is captured (one write,
storing the exception) a later fire attempt from the frame-budget check (or
shutdown hook, or OS signal handler) still sees the latch clear and performs a
second write on the already-satisfied promise — contradicting the claim that
every attempt after the first write is a no-op. -/
theorem c2_latch_double_write :
    (fireRun compInit [FireEvent.exn 5]).finished.writes = 1 ∧
    (fireRun compInit [FireEvent.exn 5]).finished_fired = false ∧
    (fireRun compInit [FireEvent.exn 5, FireEvent.budget]).finished.writes = 2 := by
  decide

/-- C3 (code bug, evaluated on the stored-exception state):
`Reactor::wait_finished` runs `finished_.get_future().wait()`, which blocks
until the shared state is ready but — unlike `get()` — never retrieves the
stored outcome, so an exception captured into the completion cell is never
re-raised on the controlling thread: for every stored exception `e` the call
returns normally (`raised = none`) after deactivating, against the claim that
the stored exception is re-raised there. -/
theorem c3_wait_no_reraise (e writes : Nat) :
    wait_finished ⟨some (Outcome.error e), writes⟩ = some ⟨false, none⟩ := rfl

/-- C9: when the Writer reports `finished()` at entry, `Reactor::capture`
returns before doing any work for the block: no buffer pointers are fetched,
no bytes are committed to the Writer's ring buffer (its free space is
unchanged), the overrun counter is not incremented, and no wake notification
is sent. -/
theorem c9_capture_skips_when_finished (channels free frame_count : Nat) (mem : Mem) :
    capture channels true free frame_count mem =
      { committed := [], free := free, overruns := 0, wake := false,
        fetched := false, stoppedAt := 0 } := rfl

/-- C4 counterexample: two channels, one frame, and a Writer ring buffer with
exactly 4 free bytes.  Channel 0's write commits one full sample, channel 1's
write is then short, so the frame loop aborts during frame 0 — yet the 4 bytes
already written stay committed: the Writer's ring buffer gains half a frame
(4 bytes is not a multiple of the 8-byte frame), refuting the claim that no
partial frame is ever committed. -/
theorem c4_counterexample :
    (capture 2 false 4 1 constMem).stoppedAt = 0 ∧
    (capture 2 false 4 1 constMem).committed.length = 4 ∧
    (capture 2 false 4 1 constMem).committed.length % (2 * sampleSize) ≠ 0 := by
  decide

/-- C4 (amended): when a channel's ring-buffer write is short, the capture
frame loop stops there and the rest of the block is dropped, but the samples
already accepted — the channels before the failing one in the abort frame, and
the partial bytes of the failing write itself — stay committed: over a block
the Writer's ring buffer gains exactly `min (blockBytes, freeSpace)` bytes,
which need not be a whole number of frames. -/
theorem c4_committed_bytes (channels free frame_count : Nat) (mem : Mem)
    (h : SampleMem mem) :
    (capture channels false free frame_count mem).committed.length
      = min (sampleSize * channels * frame_count) free := by
  rw [capture_false_eq]
  obtain ⟨-, -, -, f4⟩ := capFrames_core mem false channels frame_count 0 ⟨[], free, 0⟩
  rw [f4 h]
  simp

theorem c4_committed_bytes_witness :
    SampleMem constMem ∧
    (capture 2 false 4 1 constMem).committed.length = min (sampleSize * 2 * 1) 4 :=
  ⟨fun _ _ => rfl, c4_committed_bytes 2 4 1 constMem (fun _ _ => rfl)⟩

/-- C5: when the playback frame loop stops early at frame `k`, every non-null
output channel's host buffer holds the all-zero sample at positions
`k ≤ n < frame_count` after the block (the mute fill), and the buffers of
null-output channels are untouched by both the copy loop and the mute fill. -/
theorem c5_mute_on_abort (channels : Nat) (fin : Bool) (outs : List Bool)
    (frame_count k : Nat) (ring : List Byte) (mem0 : Mem)
    (h1 : (playback channels fin outs frame_count ring mem0).stoppedAt = k)
    (h2 : k ≠ frame_count) :
    (∀ ch, ch < channels → outs.getD ch false = true →
      ∀ n, k ≤ n → n < frame_count →
        (playback channels fin outs frame_count ring mem0).mem ch n = zeroCell) ∧
    (∀ ch n, outs.getD ch false = false →
      (playback channels fin outs frame_count ring mem0).mem ch n = mem0 ch n) := by
  rw [playback_eq] at h1 ⊢
  dsimp only at h1 ⊢
  rw [h1]
  rw [if_pos h2]
  constructor
  · intro ch hch houts n hk hn
    exact muteChans_zero outs k frame_count channels 0 _ ch n (by omega) (by omega)
      houts hk hn
  · intro ch n houts
    rw [muteChans_null outs k frame_count channels 0 _ ch n houts]
    exact playFrames_null_mem outs fin channels ch n houts frame_count 0 ⟨mem0, ring, 0⟩

theorem c5_mute_on_abort_witness :
    ((playback 1 false [true] 2 [1, 2, 3, 4] constMem).stoppedAt = 1) ∧ (1 ≠ 2) ∧
    ((∀ ch, ch < 1 → [true].getD ch false = true →
       ∀ n, 1 ≤ n → n < 2 →
         (playback 1 false [true] 2 [1, 2, 3, 4] constMem).mem ch n = zeroCell) ∧
     (∀ ch n, [true].getD ch false = false →
       (playback 1 false [true] 2 [1, 2, 3, 4] constMem).mem ch n = constMem ch n)) :=
  ⟨by decide, by decide,
   c5_mute_on_abort 1 false [true] 2 1 [1, 2, 3, 4] constMem (by decide) (by decide)⟩

/-- C6: over one block the underrun counter increments exactly once iff the
playback frame loop aborted on a short read while the Reader reported not
finished, and the overrun counter increments exactly once iff the capture
frame loop aborted on a short write while the Writer reported not finished;
neither counter moves when the corresponding collaborator reports finished. -/
theorem c6_underrun_overrun_counters (channels : Nat) (fin : Bool) (outs : List Bool)
    (frame_count : Nat) (ring : List Byte) (mem0 : Mem)
    (cChannels : Nat) (cFin : Bool) (free cFrames : Nat) (cMem : Mem) :
    (playback channels fin outs frame_count ring mem0).underruns
      = (if (playback channels fin outs frame_count ring mem0).stoppedAt ≠ frame_count
            ∧ fin = false then 1 else 0) ∧
    (capture cChannels cFin free cFrames cMem).overruns
      = (if (capture cChannels cFin free cFrames cMem).stoppedAt ≠ cFrames
            ∧ cFin = false then 1 else 0) := by
  constructor
  · rw [playback_eq]
    dsimp only
    obtain ⟨i1, i2⟩ := playFrames_core outs fin channels frame_count 0 ⟨mem0, ring, 0⟩
    rw [i1]
    rw [Nat.zero_add] at i2
    dsimp only at i1 i2 ⊢
    have hne : ((playFrames outs fin channels frame_count 0 ⟨mem0, ring, 0⟩).2
        ≠ frame_count) ↔ (ring.length < sampleSize * channels * frame_count) := by
      constructor
      · intro h
        by_contra hh
        exact h (i2.mpr hh)
      · intro h heq
        exact (i2.mp heq) h
    rw [if_congr (and_congr_left' hne) rfl rfl]
    simp
  · cases cFin with
    | true => simp [capture]
    | false =>
      rw [capture_false_eq]
      dsimp only
      obtain ⟨i1, i2, -, -⟩ := capFrames_core cMem false cChannels cFrames 0 ⟨[], free, 0⟩
      rw [i1]
      rw [Nat.zero_add] at i2
      dsimp only at i1 i2 ⊢
      have hne : ((capFrames cMem false cChannels cFrames 0 ⟨[], free, 0⟩).2
          ≠ cFrames) ↔ (free < sampleSize * cChannels * cFrames) := by
        constructor
        · intro h
          by_contra hh
          exact h (i2.mpr hh)
        · intro h heq
          exact (i2.mp heq) h
      rw [if_congr (and_congr_left' hne) rfl rfl]
      simp

/-- C7 counterexample: a construction with one real output port whose single
`jack_connect` fails.  The constructor throws, but the created port is still
registered when the error propagates (the catch block only deactivates; the
destructor of a partially constructed object does not run), refuting the claim
that every already-created port is unregistered before propagation. -/
theorem c7_counterexample :
    (reactorConstruct false true [] [OutSpec.dest "dst"] (fun _ => true)
      (fun _ => false)).threw = true ∧
    (reactorConstruct false true [] [OutSpec.dest "dst"] (fun _ => true)
      (fun _ => false)).outputPortsRegistered ≠ [] := by
  decide

/-- C7 (amended): when `connect_ports` fails during construction, the catch
block deactivates the engine before the error propagates, but nothing else is
rolled back: every port created by the construction remains registered with
the host and the process-wide singleton handle stays set. -/
theorem c7_deactivate_only (hasWriter hasReader : Bool) (inputPorts : List String)
    (outputPorts : List OutSpec) (inOk outOk : Nat → Bool)
    (h : (reactorConstruct hasWriter hasReader inputPorts outputPorts inOk outOk).threw
      = true) :
    (reactorConstruct hasWriter hasReader inputPorts outputPorts inOk outOk).activated
      = false ∧
    (reactorConstruct hasWriter hasReader inputPorts outputPorts
      inOk outOk).inputPortsRegistered = (if hasWriter then inputPorts.length else 0) ∧
    (reactorConstruct hasWriter hasReader inputPorts outputPorts
      inOk outOk).outputPortsRegistered
      = (if hasReader then register_outputs outputPorts else []).filterMap id ∧
    (reactorConstruct hasWriter hasReader inputPorts outputPorts inOk outOk).instanceSet
      = true := by
  simp only [reactorConstruct] at h ⊢
  rcases hf : connect_ports_failure hasWriter hasReader
      (if hasWriter then inputPorts.length else 0)
      (if hasReader then register_outputs outputPorts else []) inOk outOk with _ | j
  · rw [hf] at h
    exact Bool.noConfusion h
  · exact ⟨rfl, rfl, rfl, rfl⟩

theorem c7_deactivate_only_witness :
    ((reactorConstruct false true [] [OutSpec.dest "dst"] (fun _ => true)
       (fun _ => false)).threw = true) ∧
    ((reactorConstruct false true [] [OutSpec.dest "dst"] (fun _ => true)
       (fun _ => false)).activated = false ∧
     (reactorConstruct false true [] [OutSpec.dest "dst"] (fun _ => true)
       (fun _ => false)).inputPortsRegistered
       = (if false then ([] : List String).length else 0) ∧
     (reactorConstruct false true [] [OutSpec.dest "dst"] (fun _ => true)
       (fun _ => false)).outputPortsRegistered
       = (if true then register_outputs [OutSpec.dest "dst"] else []).filterMap id ∧
     (reactorConstruct false true [] [OutSpec.dest "dst"] (fun _ => true)
       (fun _ => false)).instanceSet = true) :=
  ⟨rfl, c7_deactivate_only false true [] [OutSpec.dest "dst"] (fun _ => true)
    (fun _ => false) rfl⟩

/-- C8: for a channel whose requested destination is the `NULL_OUTPUT`
sentinel, registration records a null port handle (no real port is created),
`connect_ports` attempts no wiring for that channel, and the playback path's
ring-buffer consumption, abort position and underrun count are identical for
any two null-channel configurations: one full-sample read per channel per
frame happens regardless of which channels are null, keeping all channels in
lockstep. -/
theorem c8_null_output_handling (specs : List OutSpec) (i : Nat)
    (h : specs[i]? = some OutSpec.null) :
    (register_outputs specs)[i]? = some none ∧
    i ∉ connect_attempts (register_outputs specs) ∧
    (∀ (channels : Nat) (fin : Bool) (outs1 outs2 : List Bool) (frame_count : Nat)
        (ring : List Byte) (mem0 : Mem),
      (playback channels fin outs1 frame_count ring mem0).ring
        = (playback channels fin outs2 frame_count ring mem0).ring ∧
      (playback channels fin outs1 frame_count ring mem0).stoppedAt
        = (playback channels fin outs2 frame_count ring mem0).stoppedAt ∧
      (playback channels fin outs1 frame_count ring mem0).underruns
        = (playback channels fin outs2 frame_count ring mem0).underruns) := by
  refine ⟨register_outputs_from_get specs 0 i h, ?_, ?_⟩
  · have hnull : (register_outputs specs)[i]? = some none :=
      register_outputs_from_get specs 0 i h
    have hno := connect_attempts_from_null (register_outputs specs) 0 i hnull
    simpa [connect_attempts] using hno
  · intro channels fin outs1 outs2 frame_count ring mem0
    obtain ⟨hr, hu, hn⟩ := playFrames_indep fin channels outs1 outs2 frame_count 0
      ⟨mem0, ring, 0⟩ ⟨mem0, ring, 0⟩ rfl rfl
    rw [playback_eq, playback_eq]
    exact ⟨hr, hn, hu⟩

theorem c8_null_output_handling_witness :
    ([OutSpec.dest "left", OutSpec.null][1]? = some OutSpec.null) ∧
    ((register_outputs [OutSpec.dest "left", OutSpec.null])[1]? = some none ∧
     1 ∉ connect_attempts (register_outputs [OutSpec.dest "left", OutSpec.null]) ∧
     (∀ (channels : Nat) (fin : Bool) (outs1 outs2 : List Bool) (frame_count : Nat)
         (ring : List Byte) (mem0 : Mem),
       (playback channels fin outs1 frame_count ring mem0).ring
         = (playback channels fin outs2 frame_count ring mem0).ring ∧
       (playback channels fin outs1 frame_count ring mem0).stoppedAt
         = (playback channels fin outs2 frame_count ring mem0).stoppedAt ∧
       (playback channels fin outs1 frame_count ring mem0).underruns
         = (playback channels fin outs2 frame_count ring mem0).underruns)) :=
  ⟨rfl, c8_null_output_handling [OutSpec.dest "left", OutSpec.null] 1 rfl⟩

/-- C10: when the Reader's ring buffer holds `channels * k + c` full samples
plus `r < sampleSize` stray bytes (`c < channels`), the playback frame loop
aborts at frame `k` on channel `c`'s short read, and the entire ring-buffer
content has been consumed — including the `c` full samples read for channels
`0..c-1` of frame `k` — while every non-null channel's host buffer holds only
zeros from frame `k` on: the partially consumed frame is never delivered to
the host (null channels read into the discard cell; real channels are
overwritten by the mute fill). -/
theorem c10_consumed_frame_discarded (channels c r k frame_count : Nat) (fin : Bool)
    (outs : List Bool) (ring : List Byte) (mem0 : Mem)
    (hc : c < channels) (hr : r < sampleSize)
    (hlen : ring.length = sampleSize * (channels * k + c) + r)
    (hk : k < frame_count) :
    (playback channels fin outs frame_count ring mem0).stoppedAt = k ∧
    (playback channels fin outs frame_count ring mem0).ring = [] ∧
    (∀ ch, ch < channels → outs.getD ch false = true →
      ∀ n, k ≤ n → n < frame_count →
        (playback channels fin outs frame_count ring mem0).mem ch n = zeroCell) := by
  obtain ⟨h2, hring⟩ := playFrames_abort outs fin channels c r hc hr k frame_count 0
    ⟨mem0, ring, 0⟩ hlen hk
  rw [Nat.zero_add] at h2
  rw [playback_eq]
  dsimp only
  rw [h2]
  refine ⟨rfl, hring, ?_⟩
  rw [if_pos (show k ≠ frame_count by omega)]
  intro ch hch houts n hk2 hn
  exact muteChans_zero outs k frame_count channels 0 _ ch n (by omega) (by omega)
    houts hk2 hn

theorem c10_consumed_frame_discarded_witness :
    (1 < 2 ∧ 0 < sampleSize ∧ ring12.length = sampleSize * (2 * 1 + 1) + 0 ∧ 1 < 2) ∧
    ((playback 2 false [true, true] 2 ring12 constMem).stoppedAt = 1 ∧
     (playback 2 false [true, true] 2 ring12 constMem).ring = [] ∧
     (∀ ch, ch < 2 → [true, true].getD ch false = true →
       ∀ n, 1 ≤ n → n < 2 →
         (playback 2 false [true, true] 2 ring12 constMem).mem ch n = zeroCell)) :=
  ⟨⟨by decide, by decide, by decide, by decide⟩,
   c10_consumed_frame_discarded 2 1 0 1 2 false [true, true] ring12 constMem
     (by decide) (by decide) (by decide) (by decide)⟩

end Olo
